import Mathlib

/-!
Shallow embedding of the VaR-calculator risk engine in `src/var.py`.

Prices, returns and weights are modelled as rational numbers (exact
real arithmetic in place of IEEE doubles); series are Lean lists in
date order.  The pandas/numpy operations used by the source are
embedded by their documented mathematical meaning:

* `Series.rolling(w).apply(f).dropna()` keeps one value per window of
  `w` consecutive entries (empty when the series is shorter than `w`);
* `np.percentile(a, q)` sorts ascending and linearly interpolates at
  the virtual index `q/100 * (n-1)`;
* `DataFrame.pct_change().dropna()` divides each row by the previous
  row, subtracts 1, and drops the first (undefined) row;
* `Series.mean()` is sum/length and `Series.std()` uses divisor `n-1`.

`parametric_var` needs a real square root, so it alone lands in `ℝ`;
everything before the square root is exact rational arithmetic.
-/

namespace VarCalc

/-- Ascending sort of a sample, the order statistics used by
`np.percentile` (insertion sort; any sort of rationals yields the same
sorted list). -/
def sortAsc (l : List ℚ) : List ℚ := l.insertionSort (· ≤ ·)

/-- Value of the default (linear) interpolation of numpy at virtual
index `h` over the sorted sample `s`:
`s[⌊h⌋] + (h − ⌊h⌋) · (s[⌈h⌉] − s[⌊h⌋])`. -/
def npInterp (s : List ℚ) (h : ℚ) : ℚ :=
  s.getD ⌊h⌋.toNat 0 + (h - (⌊h⌋.toNat : ℚ)) * (s.getD ⌈h⌉.toNat 0 - s.getD ⌊h⌋.toNat 0)

/-- Model of `np.percentile(l, q)` with the default linear
interpolation: interpolate the order statistics at virtual index
`q/100 · (n−1)`. -/
def percentile (l : List ℚ) (q : ℚ) : ℚ :=
  npInterp (sortAsc l) (q * ((l.length : ℚ) - 1) / 100)

/-- Line 52 of `src/var.py`:
`returns.rolling(window).apply(lambda x: (x + 1).prod() - 1).dropna()`.
pandas produces one value per complete window of `window` consecutive
daily returns (rows before the first complete window are NaN and are
removed by `dropna`), so entry `k` compounds the window starting at
index `k`. -/
def rollingCompound (returns : List ℚ) (window : Nat) : List ℚ :=
  if window ≤ returns.length then
    (List.range (returns.length - window + 1)).map fun k =>
      (((returns.drop k).take window).map fun r => r + 1).prod - 1
  else []

/-- Lines 51-59 of `src/var.py` (`historical_var`): build the rolling
compounded series; on an empty rolling series report the sentinel
`(0.0, empty series)` (the `st.error` call only displays a message, it
does not raise); otherwise return
`np.percentile(rolling_returns, 100 - confidence)` with the rolling
series. -/
def historical_var (returns : List ℚ) (window : Nat) (confidence : ℚ) : ℚ × List ℚ :=
  let rolling_returns := rollingCompound returns window
  if rolling_returns.isEmpty then (0, [])
  else (percentile rolling_returns (100 - confidence), rolling_returns)

/-- Lines 68-72 of `src/var.py` (`conditional_var`): sentinel `0.0` on
an empty rolling series, otherwise the pandas mean (sum/length) of the
elements at or below `np.percentile(rolling_returns, 100 - confidence)`. -/
def conditional_var (rolling_returns : List ℚ) (confidence : ℚ) : ℚ :=
  if rolling_returns.isEmpty then 0
  else
    let cutoff := percentile rolling_returns (100 - confidence)
    let sel := rolling_returns.filter fun x => x ≤ cutoff
    sel.sum / (sel.length : ℚ)

/-- `returns.mean()` of pandas: sum over length. -/
def seriesMean (l : List ℚ) : ℚ := l.sum / (l.length : ℚ)

/-- The square of `returns.std()` of pandas: sample variance with
divisor `n − 1` (pandas default `ddof=1`), `Σ (x − mean)² / (n − 1)`. -/
def seriesVar (l : List ℚ) : ℚ :=
  (l.map fun x => (x - seriesMean l) ^ 2).sum / ((l.length : ℚ) - 1)

/-- Line 64 of `src/var.py`: the z-score table
`{90: -1.28, 95: -1.65, 99: -2.33}`; the lookup `z_scores[confidence]`
raises `KeyError` for any other key, modelled as `none`. -/
def z_scores (confidence : ℚ) : Option ℚ :=
  if confidence = 90 then some (-(128 / 100))
  else if confidence = 95 then some (-(165 / 100))
  else if confidence = 99 then some (-(233 / 100))
  else none

/-- Lines 61-66 of `src/var.py` (`parametric_var`):
`(returns.mean() + z * returns.std()) * np.sqrt(window)` when the
z-score lookup succeeds, failure (`KeyError`) otherwise. -/
noncomputable def parametric_var (returns : List ℚ) (window : Nat) (confidence : ℚ) :
    Option ℝ :=
  (z_scores confidence).map fun z =>
    (((seriesMean returns : ℚ) : ℝ) + (z : ℝ) * Real.sqrt ((seriesVar returns : ℚ) : ℝ))
      * Real.sqrt (window : ℝ)

/-- Number of asset columns of a price table (pandas `shape[1]`,
preserved by `pct_change` and `dropna`). -/
def numCols (price_data : List (List ℚ)) : Nat := (price_data.headD []).length

/-- Line 44 of `src/var.py`: `price_data.pct_change().dropna()` — each
row divided entrywise by the previous row minus 1, the first row (no
predecessor) dropped. -/
def pct_change (price_data : List (List ℚ)) : List (List ℚ) :=
  List.zipWith (fun prev cur => List.zipWith (fun a b => b / a - 1) prev cur)
    price_data (price_data.drop 1)

/-- Lines 43-49 of `src/var.py` (`calculate_portfolio_returns`):
compute daily returns, normalise the weights by 100, halt with a
dimension error (`st.stop`, modelled `none`) when the weight count
differs from the column count, otherwise the dot product of each daily
return row with the normalised weights. -/
def calculate_portfolio_returns (price_data : List (List ℚ)) (weights : List ℚ) :
    Option (List ℚ) :=
  let daily_returns := pct_change price_data
  let w := weights.map (· / 100)
  if w.length ≠ numCols price_data then none
  else some (daily_returns.map fun row => (List.zipWith (· * ·) row w).sum)

/-- Boundary errors of the script body (lines 93-101 of `src/var.py`). -/
inductive AppError where
  | InvalidWeights
  | DimensionMismatch
  deriving DecidableEq

/-- Lines 93-122 of `src/var.py`, the script body for already-parsed
numeric weights: the guard `sum(weights) != 100` (line 96, exact
comparison) halts with `InvalidWeights` before any numeric work; then
the core runs, producing the historical VaR, the rolling series and
the conditional VaR.  The parametric estimate (computed from the same
`returns`) is modelled separately by `parametric_var`. -/
def app (weights : List ℚ) (price_data : List (List ℚ)) (window : Nat) (confidence : ℚ) :
    Except AppError (ℚ × List ℚ × ℚ) :=
  if weights.sum ≠ 100 then .error .InvalidWeights
  else
    match calculate_portfolio_returns price_data weights with
    | none => .error .DimensionMismatch
    | some returns =>
      let hv := historical_var returns window confidence
      .ok (hv.1, hv.2, conditional_var hv.2 confidence)

/-- Spec wording, §4.3: linear interpolation between order statistics —
with `s` the ascending order statistics, `h = (100−c)(n−1)/100`,
`i = ⌊h⌋` and `g = h − i`, the percentile is `(1−g)·s[i] + g·s[i+1]`;
sentinel `0` for an empty sample. -/
def specHistoricalVaR (rr : List ℚ) (c : ℚ) : ℚ :=
  if rr = [] then 0
  else
    let s := sortAsc rr
    let h : ℚ := (100 - c) * ((rr.length : ℚ) - 1) / 100
    let i : Nat := ⌊h⌋.toNat
    let g : ℚ := h - (i : ℚ)
    (1 - g) * s.getD i 0 + g * s.getD (i + 1) 0

/-- Spec wording, §4.5: the arithmetic mean of a sample. -/
def specMean (l : List ℚ) : ℚ := l.sum / (l.length : ℚ)

/-- Spec wording, §4.4: sample variance with divisor `n − 1`, in the
algebraic form `(Σ x² − n·mean²) / (n − 1)`. -/
def specSampleVariance (l : List ℚ) : ℚ :=
  ((l.map fun x => x ^ 2).sum - (l.length : ℚ) * specMean l ^ 2) / ((l.length : ℚ) - 1)

/-- Spec wording, §4.4: the reference z-constants `z(90) = −1.28`,
`z(95) = −1.65`, `z(99) = −2.33`. -/
def specZ (c : ℚ) : Option ℚ :=
  if c = 90 then some (-1.28)
  else if c = 95 then some (-1.65)
  else if c = 99 then some (-2.33)
  else none

/-- Spec wording, §4.4: `var_pct = (mean(R) + z(c)·std(R))·sqrt(W)`
with `std` the sample standard deviation (divisor `n − 1`), undefined
(`UnsupportedConfidenceLevel`) when `c` is outside the three-level
table. -/
noncomputable def specParametricVaR (r : List ℚ) (w : Nat) (c : ℚ) : Option ℝ :=
  (specZ c).map fun z =>
    (((specMean r : ℚ) : ℝ) + (z : ℝ) * Real.sqrt ((specSampleVariance r : ℚ) : ℝ))
      * Real.sqrt (w : ℝ)

/-- Spec wording, §4.1 / claim C6: the daily return series
`R[t] = Σ_i (w[i]/100) · (price[t+1][i]/price[t][i] − 1)` for
`t = 0..m−2`, a dot product of per-date per-asset returns with the
normalised weight vector. -/
def specPortfolioReturns (P : List (List ℚ)) (w : List ℚ) : List ℚ :=
  (List.range (P.length - 1)).map fun t =>
    ((List.range (numCols P)).map fun i =>
      (w.getD i 0 / 100) * ((P.getD (t + 1) []).getD i 0 / (P.getD t []).getD i 0 - 1)).sum

/-! Basic facts about the sorted sample. -/

lemma sortAsc_sorted (l : List ℚ) : List.Sorted (· ≤ ·) (sortAsc l) :=
  List.sorted_insertionSort _ l

lemma sortAsc_perm (l : List ℚ) : List.Perm (sortAsc l) l :=
  List.perm_insertionSort _ l

lemma sortAsc_length (l : List ℚ) : (sortAsc l).length = l.length :=
  (sortAsc_perm l).length_eq

lemma sortAsc_mem {l : List ℚ} {x : ℚ} (hx : x ∈ sortAsc l) : x ∈ l :=
  (sortAsc_perm l).mem_iff.mp hx

lemma sorted_getD_mono {s : List ℚ} (hs : List.Sorted (· ≤ ·) s) {i j : Nat}
    (hij : i ≤ j) (hj : j < s.length) : s.getD i 0 ≤ s.getD j 0 := by
  rw [List.getD_eq_getElem s 0 (lt_of_le_of_lt hij hj), List.getD_eq_getElem s 0 hj]
  have := hs.rel_get_of_le (a := ⟨i, lt_of_le_of_lt hij hj⟩) (b := ⟨j, hj⟩) hij
  simpa using this

/-! Facts about the floor/ceil index arithmetic of `npInterp`. -/

lemma floor_toNat_cast {h : ℚ} (hh : 0 ≤ h) : ((⌊h⌋.toNat : ℚ)) = (⌊h⌋ : ℚ) := by
  have := Int.toNat_of_nonneg (Int.floor_nonneg.mpr hh)
  exact_mod_cast congrArg (fun z : ℤ => (z : ℚ)) this

lemma floor_toNat_le {h : ℚ} (hh : 0 ≤ h) : ((⌊h⌋.toNat : ℚ)) ≤ h := by
  rw [floor_toNat_cast hh]; exact Int.floor_le h

lemma lt_floor_toNat_add_one {h : ℚ} (hh : 0 ≤ h) : h < ((⌊h⌋.toNat : ℚ)) + 1 := by
  rw [floor_toNat_cast hh]; exact Int.lt_floor_add_one h

lemma ceil_toNat_of_frac_pos {h : ℚ} (hh : 0 ≤ h) (hg : h - (⌊h⌋.toNat : ℚ) ≠ 0) :
    ⌈h⌉.toNat = ⌊h⌋.toNat + 1 := by
  have hlt : (⌊h⌋ : ℚ) < h := by
    rcases lt_or_eq_of_le (Int.floor_le h) with h1 | h1
    · exact h1
    · exact absurd (by rw [floor_toNat_cast hh, h1, sub_self]) hg
  have hceil : ⌈h⌉ = ⌊h⌋ + 1 := by
    refine le_antisymm (Int.ceil_le.mpr ?_) (Int.lt_ceil.mpr hlt)
    push_cast
    exact le_of_lt (Int.lt_floor_add_one h)
  have hfl : 0 ≤ ⌊h⌋ := Int.floor_nonneg.mpr hh
  omega

lemma ceil_toNat_of_frac_zero {h : ℚ} (hh : 0 ≤ h) (hg : h - (⌊h⌋.toNat : ℚ) = 0) :
    ⌈h⌉.toNat = ⌊h⌋.toNat := by
  have h0 : h = (⌊h⌋ : ℚ) := by
    rw [← floor_toNat_cast hh]; linarith [sub_eq_zero.mp hg]
  have hceil : ⌈h⌉ = ⌊h⌋ := by
    conv_lhs => rw [h0]
    exact Int.ceil_intCast _
  rw [hceil]

/-- With a nonnegative virtual index, the numpy interpolation formula is
the convex combination `(1−g)·s[i] + g·s[i+1]` of the two adjacent
order statistics (when the fraction `g` vanishes, the second index is
irrelevant since its coefficient is zero). -/
lemma npInterp_eq_next (s : List ℚ) {h : ℚ} (hh : 0 ≤ h) :
    npInterp s h = (1 - (h - (⌊h⌋.toNat : ℚ))) * s.getD ⌊h⌋.toNat 0
      + (h - (⌊h⌋.toNat : ℚ)) * s.getD (⌊h⌋.toNat + 1) 0 := by
  by_cases hg : h - (⌊h⌋.toNat : ℚ) = 0
  · rw [npInterp, hg, ceil_toNat_of_frac_zero hh hg]; ring
  · rw [npInterp, ceil_toNat_of_frac_pos hh hg]; ring

lemma convex_le_convex {a b g1 g2 : ℚ} (hg : g1 ≤ g2) (hab : a ≤ b) :
    (1 - g1) * a + g1 * b ≤ (1 - g2) * a + g2 * b := by
  nlinarith [mul_nonneg (sub_nonneg.mpr hg) (sub_nonneg.mpr hab)]

lemma floor_toNat_lt_length {s : List ℚ} {h : ℚ} (h0 : 0 ≤ h)
    (h1 : h ≤ (s.length : ℚ) - 1) : ⌊h⌋.toNat < s.length := by
  have h2 : ((⌊h⌋.toNat : ℚ)) + 1 ≤ (s.length : ℚ) := by linarith [floor_toNat_le h0]
  have h3 : ⌊h⌋.toNat + 1 ≤ s.length := by exact_mod_cast h2
  omega

lemma floor_toNat_succ_lt_length {s : List ℚ} {h : ℚ} (h0 : 0 ≤ h)
    (hfrac : h - (⌊h⌋.toNat : ℚ) ≠ 0) (h1 : h ≤ (s.length : ℚ) - 1) :
    ⌊h⌋.toNat + 1 < s.length := by
  have hlt : ((⌊h⌋.toNat : ℚ)) < h :=
    lt_of_le_of_ne (floor_toNat_le h0) fun e => hfrac (by rw [e, sub_self])
  have h2 : ((⌊h⌋.toNat : ℚ)) + 1 < (s.length : ℚ) := by linarith
  exact_mod_cast h2

/-- Over a sorted sample, the interpolated value at any in-range
virtual index is at least the smallest order statistic. -/
lemma head_le_npInterp {s : List ℚ} (hs : List.Sorted (· ≤ ·) s)
    {h : ℚ} (h0 : 0 ≤ h) (h1 : h ≤ (s.length : ℚ) - 1) :
    s.getD 0 0 ≤ npInterp s h := by
  rw [npInterp_eq_next s h0]
  have hg0 : 0 ≤ h - (⌊h⌋.toNat : ℚ) := sub_nonneg.mpr (floor_toNat_le h0)
  have hg1 : h - (⌊h⌋.toNat : ℚ) < 1 := by linarith [lt_floor_toNat_add_one h0]
  have hiL : ⌊h⌋.toNat < s.length := floor_toNat_lt_length h0 h1
  have hbase : s.getD 0 0 ≤ s.getD ⌊h⌋.toNat 0 := sorted_getD_mono hs (Nat.zero_le _) hiL
  by_cases hg : h - (⌊h⌋.toNat : ℚ) = 0
  · rw [hg]; linarith
  · have hi1 : ⌊h⌋.toNat + 1 < s.length := floor_toNat_succ_lt_length h0 hg h1
    have hnext : s.getD 0 0 ≤ s.getD (⌊h⌋.toNat + 1) 0 :=
      sorted_getD_mono hs (Nat.zero_le _) hi1
    nlinarith [mul_nonneg (by linarith : (0 : ℚ) ≤ 1 - (h - (⌊h⌋.toNat : ℚ)))
        (sub_nonneg.mpr hbase),
      mul_nonneg hg0 (sub_nonneg.mpr hnext)]

/-- Over a sorted sample, linear interpolation is monotone in the
virtual index. -/
lemma npInterp_mono {s : List ℚ} (hs : List.Sorted (· ≤ ·) s)
    {h1 h2 : ℚ} (h0 : 0 ≤ h1) (h12 : h1 ≤ h2) (h2n : h2 ≤ (s.length : ℚ) - 1) :
    npInterp s h1 ≤ npInterp s h2 := by
  have h20 : 0 ≤ h2 := le_trans h0 h12
  rw [npInterp_eq_next s h0, npInterp_eq_next s h20]
  have hfloor : ⌊h1⌋.toNat ≤ ⌊h2⌋.toNat := Int.toNat_le_toNat (Int.floor_le_floor h12)
  have hg10 : 0 ≤ h1 - (⌊h1⌋.toNat : ℚ) := sub_nonneg.mpr (floor_toNat_le h0)
  have hg11 : h1 - (⌊h1⌋.toNat : ℚ) < 1 := by linarith [lt_floor_toNat_add_one h0]
  have hg20 : 0 ≤ h2 - (⌊h2⌋.toNat : ℚ) := sub_nonneg.mpr (floor_toNat_le h20)
  have hi2L : ⌊h2⌋.toNat < s.length := floor_toNat_lt_length h20 h2n
  have hsplit : h2 - (⌊h2⌋.toNat : ℚ) = 0 ∨ ⌊h2⌋.toNat + 1 < s.length := by
    by_cases hg2 : h2 - (⌊h2⌋.toNat : ℚ) = 0
    · exact Or.inl hg2
    · exact Or.inr (floor_toNat_succ_lt_length h20 hg2 h2n)
  set i1 := ⌊h1⌋.toNat
  set i2 := ⌊h2⌋.toNat
  clear_value i1 i2
  rcases Nat.lt_or_ge i1 i2 with hlt | hge
  · have ha : s.getD i1 0 ≤ s.getD i2 0 := sorted_getD_mono hs (le_of_lt hlt) hi2L
    have hb : s.getD (i1 + 1) 0 ≤ s.getD i2 0 := sorted_getD_mono hs hlt hi2L
    have hR : s.getD i2 0 ≤ (1 - (h2 - (i2 : ℚ))) * s.getD i2 0
        + (h2 - (i2 : ℚ)) * s.getD (i2 + 1) 0 := by
      rcases hsplit with hg2 | hi21
      · rw [hg2]; ring_nf
        exact le_rfl
      · have hc : s.getD i2 0 ≤ s.getD (i2 + 1) 0 := sorted_getD_mono hs (Nat.le_succ i2) hi21
        nlinarith [mul_nonneg hg20 (sub_nonneg.mpr hc)]
    nlinarith [mul_nonneg (by linarith : (0 : ℚ) ≤ 1 - (h1 - (i1 : ℚ))) (sub_nonneg.mpr ha),
      mul_nonneg hg10 (sub_nonneg.mpr hb)]
  · have heq : i1 = i2 := le_antisymm hfloor hge
    subst heq
    by_cases hg2 : h2 - (i1 : ℚ) = 0
    · have hh : h1 = h2 := by linarith
      rw [hh]
    · have hi21 : i1 + 1 < s.length := by
        rcases hsplit with hz | hlt2
        · exact absurd hz hg2
        · exact hlt2
      have hc : s.getD i1 0 ≤ s.getD (i1 + 1) 0 := sorted_getD_mono hs (Nat.le_succ i1) hi21
      exact convex_le_convex (by linarith) hc

/-! Facts about `percentile` as a whole. -/

lemma percentile_index_nonneg {l : List ℚ} (hne : l ≠ []) {q : ℚ} (h0 : 0 ≤ q) :
    0 ≤ q * ((l.length : ℚ) - 1) / 100 := by
  have hlen : 1 ≤ l.length := List.length_pos.mpr hne
  have h1 : (1 : ℚ) ≤ (l.length : ℚ) := by exact_mod_cast hlen
  apply div_nonneg (mul_nonneg h0 (by linarith)) (by norm_num)

lemma percentile_index_le {l : List ℚ} (hne : l ≠ []) {q : ℚ} (h100 : q ≤ 100) :
    q * ((l.length : ℚ) - 1) / 100 ≤ (l.length : ℚ) - 1 := by
  have hlen : 1 ≤ l.length := List.length_pos.mpr hne
  have h1 : (1 : ℚ) ≤ (l.length : ℚ) := by exact_mod_cast hlen
  rw [div_le_iff₀ (by norm_num : (0 : ℚ) < 100)]
  nlinarith [mul_nonneg (sub_nonneg.mpr h100) (by linarith : (0 : ℚ) ≤ (l.length : ℚ) - 1)]

/-- The linear-interpolation percentile of a non-empty sample at a
level in `[0, 100]` is at least the sample minimum, hence at least
some element of the sample. -/
lemma exists_mem_le_percentile {l : List ℚ} (hne : l ≠ []) {q : ℚ}
    (h0 : 0 ≤ q) (h100 : q ≤ 100) : ∃ x ∈ l, x ≤ percentile l q := by
  have hslen : (sortAsc l).length = l.length := sortAsc_length l
  have hlen : 0 < l.length := List.length_pos.mpr hne
  have hs0 : 0 < (sortAsc l).length := by omega
  refine ⟨(sortAsc l).getD 0 0, ?_, ?_⟩
  · rw [List.getD_eq_getElem _ _ hs0]
    exact sortAsc_mem (List.getElem_mem hs0)
  · rw [percentile]
    apply head_le_npInterp (sortAsc_sorted l) (percentile_index_nonneg hne h0)
    rw [hslen]
    exact percentile_index_le hne h100

/-- np.percentile is monotone in the level over `[0, 100]`. -/
lemma percentile_mono {l : List ℚ} (hne : l ≠ []) {q1 q2 : ℚ}
    (h0 : 0 ≤ q1) (h12 : q1 ≤ q2) (h100 : q2 ≤ 100) :
    percentile l q1 ≤ percentile l q2 := by
  have hlen : 1 ≤ l.length := List.length_pos.mpr hne
  have h1 : (1 : ℚ) ≤ (l.length : ℚ) := by exact_mod_cast hlen
  rw [percentile, percentile]
  apply npInterp_mono (sortAsc_sorted l) (percentile_index_nonneg hne h0)
  · gcongr
    linarith
  · rw [sortAsc_length]
    exact percentile_index_le hne h100

/-! A mean is bounded by any bound on the sample. -/

lemma sum_le_length_mul (c : ℚ) : ∀ (t : List ℚ), (∀ x ∈ t, x ≤ c) →
    t.sum ≤ (t.length : ℚ) * c
  | [] => by simp
  | a :: tl => fun hb => by
    have ha := hb a (List.mem_cons_self a tl)
    have htl := sum_le_length_mul c tl fun x hx => hb x (List.mem_cons_of_mem a hx)
    simp only [List.sum_cons, List.length_cons]
    push_cast
    linarith

lemma mean_le_of_forall_le {t : List ℚ} (hne : t ≠ []) {c : ℚ} (hb : ∀ x ∈ t, x ≤ c) :
    t.sum / (t.length : ℚ) ≤ c := by
  have hlen : 0 < t.length := List.length_pos.mpr hne
  have hlenQ : 0 < (t.length : ℚ) := by exact_mod_cast hlen
  rw [div_le_iff₀ hlenQ]
  calc t.sum ≤ (t.length : ℚ) * c := sum_le_length_mul c t hb
    _ = c * (t.length : ℚ) := mul_comm _ _

/-! Unfolding lemmas for the estimators. -/

lemma historical_var_of_ne {returns : List ℚ} {window : Nat} (c : ℚ)
    (hne : rollingCompound returns window ≠ []) :
    historical_var returns window c =
      (percentile (rollingCompound returns window) (100 - c),
       rollingCompound returns window) := by
  simp [historical_var, List.isEmpty_iff, hne]

lemma historical_var_of_empty {returns : List ℚ} {window : Nat} (c : ℚ)
    (he : rollingCompound returns window = []) :
    historical_var returns window c = (0, []) := by
  simp [historical_var, List.isEmpty_iff, he]

lemma drop_take_eq_range_map (l : List ℚ) (k W : Nat) (h : k + W ≤ l.length) :
    (l.drop k).take W = (List.range W).map fun j => l.getD (k + j) 0 := by
  apply List.ext_getElem
  · simp
    omega
  · intro i h1 h2
    simp only [List.getElem_take, List.getElem_drop, List.getElem_map, List.getElem_range]
    rw [List.getD_eq_getElem]

/-- C1: for every daily return series `R` and window `W ≥ 1` with
`W ≤ len R`, the rolling compounder yields a series of length
`len R − W + 1` whose entry `k` is `Π_{j<W} (1 + R[k+j]) − 1` for every
valid start index `k`; and for `len R < W` the result is empty (a
value, not an exception). -/
theorem C1_rolling_compounder (R : List ℚ) (W : Nat) (hW : 1 ≤ W) :
    (W ≤ R.length →
      (rollingCompound R W).length = R.length - W + 1 ∧
      ∀ k, k + W ≤ R.length →
        (rollingCompound R W).getD k 0 =
          ((List.range W).map fun j => 1 + R.getD (k + j) 0).prod - 1) ∧
    (R.length < W → rollingCompound R W = []) := by
  constructor
  · intro hle
    rw [rollingCompound, if_pos hle]
    constructor
    · simp
    · intro k hk
      have hkrange : k < R.length - W + 1 := by omega
      rw [List.getD_eq_getElem _ _ (by simpa using hkrange)]
      simp only [List.getElem_map, List.getElem_range]
      rw [drop_take_eq_range_map R k W hk, List.map_map]
      have hcomp : ((fun r => r + 1) ∘ fun j => R.getD (k + j) 0) =
          fun j => 1 + R.getD (k + j) 0 := by
        funext j
        simp [add_comm]
      rw [hcomp]
  · intro hlt
    rw [rollingCompound, if_neg (by omega)]

/-- Witness for C1 at the series `[1/10, −1/10, 1/20]` with window 2
(first part) and the 1-element series with window 2 (second part). -/
theorem C1_witness :
    (rollingCompound [(1 : ℚ)/10, -(1 : ℚ)/10, (1 : ℚ)/20] 2).length = 2 ∧
    (rollingCompound [(1 : ℚ)/10, -(1 : ℚ)/10, (1 : ℚ)/20] 2).getD 0 0 =
      ((List.range 2).map fun j =>
        1 + [(1 : ℚ)/10, -(1 : ℚ)/10, (1 : ℚ)/20].getD (0 + j) 0).prod - 1 ∧
    rollingCompound [(1 : ℚ)/10] 2 = [] :=
  ⟨((C1_rolling_compounder [(1 : ℚ)/10, -(1 : ℚ)/10, (1 : ℚ)/20] 2 (by decide)).1
      (by decide)).1,
   ((C1_rolling_compounder [(1 : ℚ)/10, -(1 : ℚ)/10, (1 : ℚ)/20] 2 (by decide)).1
      (by decide)).2 0 (by decide),
   (C1_rolling_compounder [(1 : ℚ)/10] 2 (by decide)).2 (by decide)⟩

/-- C2: for every confidence level `c ≤ 100`, the historical VaR
estimator is the `(100 − c)`-th empirical percentile of the rolling
return series computed by linear interpolation between order
statistics, and the sentinel `0` (with an empty series) when the
rolling series is empty — as captured by the spec-side definition
`specHistoricalVaR`. -/
theorem C2_historical_percentile (returns : List ℚ) (window : Nat) (c : ℚ)
    (hc : c ≤ 100) :
    historical_var returns window c =
      (specHistoricalVaR (rollingCompound returns window) c,
       rollingCompound returns window) := by
  by_cases hrr : rollingCompound returns window = []
  · rw [historical_var_of_empty c hrr, hrr]
    simp [specHistoricalVaR]
  · rw [historical_var_of_ne c hrr, specHistoricalVaR, if_neg hrr]
    have h0 : 0 ≤ (100 - c) * (((rollingCompound returns window).length : ℚ) - 1) / 100 :=
      percentile_index_nonneg hrr (by linarith)
    simp only [Prod.mk.injEq, and_true]
    rw [percentile, npInterp_eq_next _ h0]

/-- Witness for C2 at the series `[1/10, −1/10, 1/20]`, window 2,
confidence 90. -/
theorem C2_witness :
    (90 : ℚ) ≤ 100 ∧
    historical_var [(1 : ℚ)/10, -(1 : ℚ)/10, (1 : ℚ)/20] 2 90 =
      (specHistoricalVaR (rollingCompound [(1 : ℚ)/10, -(1 : ℚ)/10, (1 : ℚ)/20] 2) 90,
       rollingCompound [(1 : ℚ)/10, -(1 : ℚ)/10, (1 : ℚ)/20] 2) :=
  ⟨by norm_num,
   C2_historical_percentile [(1 : ℚ)/10, -(1 : ℚ)/10, (1 : ℚ)/20] 2 90 (by norm_num)⟩

/-- C3: the conditional VaR estimator returns the sentinel `0` on an
empty rolling series, and on the non-empty rolling series produced by
`historical_var` it returns the arithmetic mean of exactly the
elements at or below (inclusive) the historical-VaR percentile
threshold. -/
theorem C3_conditional_tail_mean (returns : List ℚ) (window : Nat) (c : ℚ)
    (hne : (historical_var returns window c).2 ≠ []) :
    conditional_var ([] : List ℚ) c = 0 ∧
    conditional_var (historical_var returns window c).2 c =
      specMean ((historical_var returns window c).2.filter
        fun x => x ≤ (historical_var returns window c).1) := by
  have hrr : rollingCompound returns window ≠ [] := by
    intro e
    apply hne
    rw [historical_var_of_empty c e]
  rw [historical_var_of_ne c hrr]
  refine ⟨by simp [conditional_var], ?_⟩
  simp [conditional_var, specMean, List.isEmpty_iff, hrr]

/-- Witness for C3 at the series `[1/10, −1/10, 1/20]`, window 2,
confidence 90. -/
theorem C3_witness :
    (historical_var [(1 : ℚ)/10, -(1 : ℚ)/10, (1 : ℚ)/20] 2 90).2 ≠ [] ∧
    conditional_var (historical_var [(1 : ℚ)/10, -(1 : ℚ)/10, (1 : ℚ)/20] 2 90).2 90 =
      specMean ((historical_var [(1 : ℚ)/10, -(1 : ℚ)/10, (1 : ℚ)/20] 2 90).2.filter
        fun x => x ≤ (historical_var [(1 : ℚ)/10, -(1 : ℚ)/10, (1 : ℚ)/20] 2 90).1) :=
  ⟨by decide,
   (C3_conditional_tail_mean [(1 : ℚ)/10, -(1 : ℚ)/10, (1 : ℚ)/20] 2 90 (by decide)).2⟩

/-- C4: on a non-empty rolling return series and a confidence level in
`[0, 100]`, the conditional VaR is at most the historical VaR
(non-strict): the tail average is at least as extreme as its own
threshold. -/
theorem C4_cvar_le_hist (returns : List ℚ) (window : Nat) (c : ℚ)
    (hc0 : 0 ≤ c) (hc1 : c ≤ 100)
    (hne : (historical_var returns window c).2 ≠ []) :
    conditional_var (historical_var returns window c).2 c ≤
      (historical_var returns window c).1 := by
  have hrr : rollingCompound returns window ≠ [] := by
    intro e
    apply hne
    rw [historical_var_of_empty c e]
  rw [historical_var_of_ne c hrr]
  dsimp only
  rw [conditional_var, if_neg (by simpa [List.isEmpty_iff] using hrr)]
  obtain ⟨x, hxmem, hxle⟩ :=
    exists_mem_le_percentile hrr (q := 100 - c) (by linarith) (by linarith)
  have hselne : (rollingCompound returns window).filter
      (fun y => y ≤ percentile (rollingCompound returns window) (100 - c)) ≠ [] := by
    intro e
    have := List.filter_eq_nil_iff.mp e x hxmem
    simp only [decide_eq_true_eq] at this
    exact this hxle
  apply mean_le_of_forall_le hselne
  intro y hy
  rw [List.mem_filter] at hy
  simpa using hy.2

/-- Witness for C4 at the series `[1/10, −1/10, 1/20]`, window 2,
confidence 90. -/
theorem C4_witness :
    (historical_var [(1 : ℚ)/10, -(1 : ℚ)/10, (1 : ℚ)/20] 2 90).2 ≠ [] ∧
    conditional_var (historical_var [(1 : ℚ)/10, -(1 : ℚ)/10, (1 : ℚ)/20] 2 90).2 90 ≤
      (historical_var [(1 : ℚ)/10, -(1 : ℚ)/10, (1 : ℚ)/20] 2 90).1 :=
  ⟨by decide,
   C4_cvar_le_hist [(1 : ℚ)/10, -(1 : ℚ)/10, (1 : ℚ)/20] 2 90 (by norm_num) (by norm_num)
     (by decide)⟩

lemma sum_sq_sub (μ : ℚ) : ∀ (l : List ℚ),
    (l.map fun x => (x - μ) ^ 2).sum
      = (l.map fun x => x ^ 2).sum - 2 * μ * l.sum + (l.length : ℚ) * μ ^ 2
  | [] => by simp
  | a :: tl => by
    have ih := sum_sq_sub μ tl
    simp only [List.map_cons, List.sum_cons, List.length_cons]
    rw [ih]
    push_cast
    ring

/-- The two textbook forms of the sample variance with divisor `n − 1`
agree: `Σ (x − mean)² = Σ x² − n·mean²`. -/
lemma seriesVar_eq_specSampleVariance (l : List ℚ) :
    seriesVar l = specSampleVariance l := by
  rcases eq_or_ne l.length 0 with h0 | h0
  · have hl : l = [] := List.length_eq_zero.mp h0
    subst hl
    simp [seriesVar, specSampleVariance, seriesMean, specMean]
  · have hn : ((l.length : ℚ)) ≠ 0 := by exact_mod_cast h0
    rw [seriesVar, specSampleVariance]
    have hms : specMean l = seriesMean l := rfl
    rw [hms]
    congr 1
    rw [sum_sq_sub (seriesMean l) l]
    have hS : (l.length : ℚ) * seriesMean l = l.sum := by
      rw [seriesMean]
      field_simp
    linear_combination (2 * seriesMean l) * hS

/-- C5: the parametric VaR estimator computes exactly
`(mean(R) + z(c)·std(R))·sqrt(W)` with the z-table
`z(90) = −1.28, z(95) = −1.65, z(99) = −2.33` and the sample standard
deviation with divisor `n − 1`, and fails (modelled `none`, the
`KeyError` the spec names `UnsupportedConfidenceLevel`) for every `c`
outside the three-level table — as captured by the spec-side
definition `specParametricVaR`. -/
theorem C5_parametric_formula (returns : List ℚ) (window : Nat) (c : ℚ) :
    parametric_var returns window c = specParametricVaR returns window c := by
  have hz : z_scores c = specZ c := by
    rw [z_scores, specZ]
    split_ifs <;> norm_num
  rw [parametric_var, specParametricVaR, hz, seriesVar_eq_specSampleVariance]
  rfl

lemma zipWith_mul_sum_eq (u v : List ℚ) (n : Nat) (hu : u.length = n) (hv : v.length = n) :
    (List.zipWith (· * ·) u v).sum
      = ((List.range n).map fun i => u.getD i 0 * v.getD i 0).sum := by
  congr 1
  apply List.ext_getElem
  · simp [hu, hv]
  · intro i h1 h2
    rw [List.length_zipWith, hu, hv, min_self] at h1
    simp only [List.getElem_zipWith, List.getElem_map, List.getElem_range]
    rw [List.getD_eq_getElem _ _ (by omega : i < u.length),
      List.getD_eq_getElem _ _ (by omega : i < v.length)]

/-- One date of the aggregation: the dot product of the pct-change row
with the normalised weights equals the index-wise sum of the claim. -/
lemma dot_row_eq (prev cur w : List ℚ) (n : Nat)
    (hp : prev.length = n) (hc : cur.length = n) (hw : w.length = n) :
    (List.zipWith (· * ·) (List.zipWith (fun a b => b / a - 1) prev cur)
        (w.map (· / 100))).sum
      = ((List.range n).map fun i =>
          w.getD i 0 / 100 * (cur.getD i 0 / prev.getD i 0 - 1)).sum := by
  have hz : (List.zipWith (fun a b => b / a - 1) prev cur).length = n := by
    rw [List.length_zipWith, hp, hc, min_self]
  have hm : (w.map (· / 100)).length = n := by rw [List.length_map, hw]
  rw [zipWith_mul_sum_eq _ _ n hz hm]
  congr 1
  apply List.map_eq_map_iff.mpr
  intro i hi
  rw [List.mem_range] at hi
  rw [List.getD_eq_getElem _ 0 (show i < (List.zipWith (fun a b => b / a - 1) prev cur).length
      by omega),
    List.getD_eq_getElem _ 0 (show i < (w.map (· / 100)).length by omega)]
  simp only [List.getElem_zipWith, List.getElem_map]
  rw [List.getD_eq_getElem prev 0 (by omega), List.getD_eq_getElem cur 0 (by omega),
    List.getD_eq_getElem w 0 (by omega)]
  ring

/-- C6: for a rectangular price table of positive prices with `n`
asset columns and a weight vector of length `n` (in percent), the
return aggregator produces the daily return series of length `m − 1`
with `R[t] = Σ_i (w[i]/100) · (price[t+1][i]/price[t][i] − 1)` — as
captured by the spec-side definition `specPortfolioReturns`. -/
theorem C6_return_aggregator (P : List (List ℚ)) (w : List ℚ)
    (hrect : ∀ row ∈ P, row.length = numCols P)
    (hpos : ∀ row ∈ P, ∀ x ∈ row, 0 < x)
    (hw : w.length = numCols P) :
    calculate_portfolio_returns P w = some (specPortfolioReturns P w) := by
  rw [calculate_portfolio_returns]
  rw [if_neg (by simp [hw])]
  congr 1
  apply List.ext_getElem
  · simp [pct_change, specPortfolioReturns]
  · intro t h1 h2
    have hlen : t + 1 < P.length := by
      simp [pct_change] at h1
      omega
    simp only [List.getElem_map, specPortfolioReturns, List.getElem_range, pct_change,
      List.getElem_zipWith, List.getElem_drop]
    have hidx : P[1 + t] = P[t + 1] := by
      congr 1
      omega
    rw [hidx]
    have hrow1 : (P[t]).length = numCols P := hrect _ (List.getElem_mem _)
    have hrow2 : (P[t + 1]).length = numCols P := hrect _ (List.getElem_mem _)
    rw [List.getD_eq_getElem P [] (show t < P.length by omega),
      List.getD_eq_getElem P [] (show t + 1 < P.length by omega)]
    exact dot_row_eq _ _ _ (numCols P) hrow1 hrow2 hw

/-- Witness for C6 at the spec's concrete scenario: two assets, four
dates, weights 60/40. -/
theorem C6_witness :
    ((∀ row ∈ [[(100 : ℚ), 50], [101, 49], [102, 51], [101, 52]],
        row.length = numCols [[(100 : ℚ), 50], [101, 49], [102, 51], [101, 52]]) ∧
      (∀ row ∈ [[(100 : ℚ), 50], [101, 49], [102, 51], [101, 52]], ∀ x ∈ row, 0 < x) ∧
      [(60 : ℚ), 40].length = numCols [[(100 : ℚ), 50], [101, 49], [102, 51], [101, 52]]) ∧
    calculate_portfolio_returns [[(100 : ℚ), 50], [101, 49], [102, 51], [101, 52]]
        [(60 : ℚ), 40] =
      some (specPortfolioReturns [[(100 : ℚ), 50], [101, 49], [102, 51], [101, 52]]
        [(60 : ℚ), 40]) :=
  ⟨⟨by decide, by decide, by decide⟩,
   C6_return_aggregator [[(100 : ℚ), 50], [101, 49], [102, 51], [101, 52]] [(60 : ℚ), 40]
     (by decide) (by decide) (by decide)⟩

/-- C7: the return aggregator fails (with the dimension error,
modelled `none`) if and only if the weight count differs from the
asset column count; the `Option` structure of the embedding reflects
that the check precedes the dot product, so no partial series is
produced on failure. -/
theorem C7_dimension_mismatch (P : List (List ℚ)) (w : List ℚ) :
    calculate_portfolio_returns P w = none ↔ w.length ≠ numCols P := by
  rw [calculate_portfolio_returns]
  by_cases h : w.length = numCols P
  · rw [if_neg (by simp [h])]
    simp [h]
  · rw [if_pos (by simp [h])]
    simp [h]

/-- C8: for a fixed non-empty rolling return series, historical VaR is
monotone in the confidence level across the three supported levels:
`HistVaR(99) ≤ HistVaR(95) ≤ HistVaR(90)`. -/
theorem C8_hist_var_monotone (returns : List ℚ) (window : Nat)
    (hne : rollingCompound returns window ≠ []) :
    (historical_var returns window 99).1 ≤ (historical_var returns window 95).1 ∧
    (historical_var returns window 95).1 ≤ (historical_var returns window 90).1 := by
  rw [historical_var_of_ne 99 hne, historical_var_of_ne 95 hne, historical_var_of_ne 90 hne]
  exact ⟨percentile_mono hne (by norm_num) (by norm_num) (by norm_num),
    percentile_mono hne (by norm_num) (by norm_num) (by norm_num)⟩

/-- Witness for C8 at the series `[1/10, −1/10, 1/20]`, window 2. -/
theorem C8_witness :
    rollingCompound [(1 : ℚ)/10, -(1 : ℚ)/10, (1 : ℚ)/20] 2 ≠ [] ∧
    (historical_var [(1 : ℚ)/10, -(1 : ℚ)/10, (1 : ℚ)/20] 2 99).1 ≤
      (historical_var [(1 : ℚ)/10, -(1 : ℚ)/10, (1 : ℚ)/20] 2 95).1 ∧
    (historical_var [(1 : ℚ)/10, -(1 : ℚ)/10, (1 : ℚ)/20] 2 95).1 ≤
      (historical_var [(1 : ℚ)/10, -(1 : ℚ)/10, (1 : ℚ)/20] 2 90).1 :=
  ⟨by decide, C8_hist_var_monotone [(1 : ℚ)/10, -(1 : ℚ)/10, (1 : ℚ)/20] 2 (by decide)⟩

/-- C9 counterexample: the boundary check at line 96 of `src/var.py` is
the exact comparison `sum(weights) != 100`, so the weight list
`[50, 50 + 1/2000000]`, whose sum is within the claimed `1e-6`
tolerance of 100, is nonetheless rejected with `InvalidWeights` —
refuting the claim that weights within the tolerance pass. -/
theorem C9_counterexample :
    |([(50 : ℚ), 50 + 1/2000000].sum) - 100| ≤ 1/1000000 ∧
    app [(50 : ℚ), 50 + 1/2000000] [[1], [1]] 1 95 =
      Except.error AppError.InvalidWeights := by
  constructor
  · rw [abs_le]
    constructor <;> norm_num
  · rw [app, if_pos (by norm_num : ¬([(50 : ℚ), 50 + 1/2000000].sum = 100))]

/-- C9 amended: for already-parsed numeric weights, the boundary
validation fails with `InvalidWeights` exactly when the weights do not
sum to 100 exactly (no tolerance is applied), and the check runs
before the core computation, so no estimate is produced on failure. -/
theorem C9_weights_exact_gate (weights : List ℚ) (P : List (List ℚ)) (window : Nat)
    (c : ℚ) :
    app weights P window c = Except.error AppError.InvalidWeights ↔
      weights.sum ≠ 100 := by
  rw [app]
  by_cases h : weights.sum = 100
  · rw [if_neg (by simp [h])]
    simp only [h, ne_eq, not_true_eq_false, iff_false]
    cases hc : calculate_portfolio_returns P weights with
    | none => simp
    | some r => simp
  · rw [if_pos h]
    simp [h]

/-- C10: for a non-empty rolling return series and a confidence level
in `(0, 100)`, the linear-interpolation percentile is at least some
element of the series (its minimum), so the tail selected by the
conditional VaR estimator is non-empty — the mean it returns is a mean
over a non-empty selection. -/
theorem C10_tail_nonempty (rr : List ℚ) (c : ℚ) (hne : rr ≠ [])
    (h0 : 0 < c) (h1 : c < 100) :
    (∃ x ∈ rr, x ≤ percentile rr (100 - c)) ∧
    rr.filter (fun x => x ≤ percentile rr (100 - c)) ≠ [] := by
  obtain ⟨x, hxmem, hxle⟩ :=
    exists_mem_le_percentile hne (q := 100 - c) (by linarith) (by linarith)
  refine ⟨⟨x, hxmem, hxle⟩, ?_⟩
  intro e
  have hall := List.filter_eq_nil_iff.mp e x hxmem
  simp only [decide_eq_true_eq] at hall
  exact hall hxle

/-- Witness for C10 at the rolling series `[−1/100, −11/200]` and
confidence 90. -/
theorem C10_witness :
    ([(-1 : ℚ)/100, -(11 : ℚ)/200] ≠ []) ∧
    [(-1 : ℚ)/100, -(11 : ℚ)/200].filter
      (fun x => x ≤ percentile [(-1 : ℚ)/100, -(11 : ℚ)/200] (100 - 90)) ≠ [] :=
  ⟨by decide,
   (C10_tail_nonempty [(-1 : ℚ)/100, -(11 : ℚ)/200] 90 (by decide) (by norm_num)
     (by norm_num)).2⟩

end VarCalc
